import Mathlib

/-!
Verification of the binomial American-option pricer and its finite-difference
Greeks estimator (`src/OptionsPriceCalculator.py`).

The Python floats are modelled as real numbers (`ℝ`), `math.exp` as `Real.exp`
and `math.sqrt` as `Real.sqrt`.  The in-place backward pass over the Python
list `option_values` is modelled by `updRow` (one inner `for j` loop, a fold of
`List.set` updates, each reading the not-yet-overwritten entries `j` and `j+1`)
and `sweep` (the outer `for i in range(n-1, -1, -1)` loop).  `binomial_tree`
and `calculate_greeks` are direct transcriptions of the two core functions.

Python's run-time failures (ZeroDivisionError on `T / n` when `n == 0` and on
the probability quotient when `u - d == 0`, ValueError from `math.sqrt` on a
negative time step, IndexError on `option_values[0]` for negative `n`) are
modelled by the `Option`-valued variants `binomial_treeE`, `pydiv` and
`calculate_greeksE`, with one `none`-guard per failing operation, in source
order.

The specification side is `specNode` / `spec_price`: the value of node (i, j)
of the lattice defined by direct recursion, exactly as section 4.1 of the
specification words it, and `calculate_greeks_traced`, which additionally logs
the argument tuple of every pricer invocation the Greeks estimator makes.
-/

/-- One inner pass of the backward loop (`for j in range(i + 1)`): the entry at
index `j` is overwritten with `f j v[j] v[j+1]`, reading the entries before
they are overwritten, exactly as the in-place Python update does (index `j` is
written after being read, index `j+1` is written only by a later-indexed,
i.e. never-executed-before, iteration of an earlier level). -/
def updRow (f : ℕ → ℝ → ℝ → ℝ) (i : ℕ) (v : List ℝ) : List ℝ :=
  (List.range (i + 1)).foldl (fun w j => w.set j (f j (w.getD j 0) (w.getD (j + 1) 0))) v

/-- The value written at node `(i, j)` during the backward pass, given the two
child values `vj = V[j]` and `vj1 = V[j+1]`: the maximum of the discounted
expectation and the immediate-exercise payoff (lines 26-30 of the source). -/
noncomputable def nodeUpdate (S K r dt u d p : ℝ) (option_type : String) (i j : ℕ)
    (vj vj1 : ℝ) : ℝ :=
  let stock_price := S * u ^ j * d ^ (i - j)
  max (Real.exp (-r * dt) * (p * vj1 + (1 - p) * vj))
    (if option_type = "call" then stock_price - K else K - stock_price)

/-- The outer backward loop `for i in range(n - 1, -1, -1)`: `sweep … m v`
processes levels `m - 1, m - 2, …, 0` starting from the row `v` of level-`m`
values. -/
noncomputable def sweep (S K r dt u d p : ℝ) (option_type : String) :
    ℕ → List ℝ → List ℝ
  | 0, v => v
  | i + 1, v =>
    sweep S K r dt u d p option_type i (updRow (nodeUpdate S K r dt u d p option_type i) i v)

/-- Transcription of `binomial_tree(S, K, T, r, sigma, n, option_type)`
(source lines 8-32), over `ℝ`, for the non-failing case `n ≥ 1` (the argument
is a natural number; the `Option`-valued variant `binomial_treeE` below also
covers the failing inputs). -/
noncomputable def binomial_tree (S K T r sigma : ℝ) (n : ℕ) (option_type : String) : ℝ :=
  let dt := T / (n : ℝ)
  let u := Real.exp (sigma * Real.sqrt dt)
  let d := 1 / u
  let p := (Real.exp (r * dt) - d) / (u - d)
  let stock_prices := (List.range (n + 1)).map fun j => S * u ^ j * d ^ (n - j)
  let option_values :=
    if option_type = "call" then stock_prices.map fun price => max (price - K) 0
    else stock_prices.map fun price => max (K - price) 0
  (sweep S K r dt u d p option_type n option_values).getD 0 0

/-- Transcription of `calculate_greeks(S, K, T, r, sigma, n, option_type)`
(source lines 35-67); returns `(delta, gamma, vega, theta, rho)`. -/
noncomputable def calculate_greeks (S K T r sigma : ℝ) (n : ℕ) (option_type : String) :
    ℝ × ℝ × ℝ × ℝ × ℝ :=
  let epsilon : ℝ := 0.01
  let S_up := S * 1.01
  let S_down := S * 0.99
  let V_up := binomial_tree S_up K T r sigma n option_type
  let V_down := binomial_tree S_down K T r sigma n option_type
  let delta := (V_up - V_down) / (S_up - S_down)
  let delta_up := (binomial_tree (S_up * 1.01) K T r sigma n option_type - V_up) /
    (S_up * 1.01 - S_up)
  let delta_down := (V_down - binomial_tree (S_down * 0.99) K T r sigma n option_type) /
    (S_down - S_down * 0.99)
  let gamma := (delta_up - delta_down) / (S_up - S_down)
  let V_vol_up := binomial_tree S K T r (sigma + epsilon) n option_type
  let V_vol_down := binomial_tree S K T r (sigma - epsilon) n option_type
  let vega := (V_vol_up - V_vol_down) / (2 * epsilon) / 100
  let dt : ℝ := 1 / 365
  let V_current := binomial_tree S K T r sigma n option_type
  let V_T_down := binomial_tree S K (T - dt) r sigma n option_type
  let theta := (V_T_down - V_current) / dt
  let theta' := theta / 365
  let V_r_up := binomial_tree S K T (r + epsilon) sigma n option_type
  let V_r_down := binomial_tree S K T (r - epsilon) sigma n option_type
  let rho := (V_r_up - V_r_down) / (2 * epsilon) / 100
  (delta, gamma, vega, theta', rho)

/-- The risk-neutral up-probability `p = (exp(r·Δt) − d) / (u − d)` computed by
the pricer from `(T, r, σ, n)` (source lines 9-12), exposed as a named
definition so that claims can constrain it. -/
noncomputable def probUp (T r sigma : ℝ) (n : ℕ) : ℝ :=
  (Real.exp (r * (T / (n : ℝ))) - 1 / Real.exp (sigma * Real.sqrt (T / (n : ℝ)))) /
    (Real.exp (sigma * Real.sqrt (T / (n : ℝ))) -
      1 / Real.exp (sigma * Real.sqrt (T / (n : ℝ))))

/-- Modelled from the spec, section 4.1 (steps 4-5): the value of lattice node
`(i, j)` defined by direct recursion — terminal payoff at depth `n`, and at an
interior node the maximum of the discounted expectation over the two child
values and the immediate-exercise payoff at the node's stock price. -/
noncomputable def specNode (S K r dt u d p : ℝ) (option_type : String) (n : ℕ) :
    ℕ → ℕ → ℝ :=
  fun i j =>
    if h : i < n then
      max (Real.exp (-r * dt) *
          (p * specNode S K r dt u d p option_type n (i + 1) (j + 1) +
            (1 - p) * specNode S K r dt u d p option_type n (i + 1) j))
        (if option_type = "call" then S * u ^ j * d ^ (i - j) - K
          else K - S * u ^ j * d ^ (i - j))
    else
      if option_type = "call" then max (S * u ^ j * d ^ (n - j) - K) 0
      else max (K - S * u ^ j * d ^ (n - j)) 0
termination_by i _ => n - i
decreasing_by all_goals omega

/-- Modelled from the spec, section 4.1: the price is the node-(0,0) value of
the backward induction, with `Δt = T/n`, `u = exp(σ·√Δt)`, `d = 1/u` and
`p = (exp(r·Δt) − d)/(u − d)`. -/
noncomputable def spec_price (S K T r sigma : ℝ) (n : ℕ) (option_type : String) : ℝ :=
  let dt := T / (n : ℝ)
  let u := Real.exp (sigma * Real.sqrt dt)
  let d := 1 / u
  let p := (Real.exp (r * dt) - d) / (u - d)
  specNode S K r dt u d p option_type n 0 0

/-- Python float division: `ZeroDivisionError` (modelled as `none`) when the
divisor is zero. -/
noncomputable def pydiv (a b : ℝ) : Option ℝ :=
  if b = 0 then none else some (a / b)

/-- `binomial_tree` including Python's run-time failures, with `n : ℤ` as in
the source (Python `int`).  The guards appear in the order in which the
corresponding operations execute and raise: `T / n` raises
`ZeroDivisionError` when `n = 0` (line 9); `math.sqrt(dt)` raises
`ValueError` when `dt < 0` (line 10); the probability quotient raises
`ZeroDivisionError` when `u - d = 0` (line 12); and for negative `n` both
loops are empty, `option_values` is the empty list and `option_values[0]`
raises `IndexError` (line 32).  On every other input the function returns the
value of `binomial_tree`. -/
noncomputable def binomial_treeE (S K T r sigma : ℝ) (n : ℤ) (option_type : String) :
    Option ℝ :=
  if n = 0 then none else
  let dt := T / (n : ℝ)
  if dt < 0 then none else
  let u := Real.exp (sigma * Real.sqrt dt)
  let d := 1 / u
  if u - d = 0 then none else
  if n < 0 then none else
  some (binomial_tree S K T r sigma n.toNat option_type)

/-- `calculate_greeks` including Python's run-time failures: every
`binomial_tree` call and every division is performed in source order through
the `Option` monad, so the result is `none` exactly when the Python function
raises. -/
noncomputable def calculate_greeksE (S K T r sigma : ℝ) (n : ℤ) (option_type : String) :
    Option (ℝ × ℝ × ℝ × ℝ × ℝ) :=
  (binomial_treeE (S * 1.01) K T r sigma n option_type).bind fun V_up =>
  (binomial_treeE (S * 0.99) K T r sigma n option_type).bind fun V_down =>
  (pydiv (V_up - V_down) (S * 1.01 - S * 0.99)).bind fun delta =>
  (binomial_treeE (S * 1.01 * 1.01) K T r sigma n option_type).bind fun g_up =>
  (pydiv (g_up - V_up) (S * 1.01 * 1.01 - S * 1.01)).bind fun delta_up =>
  (binomial_treeE (S * 0.99 * 0.99) K T r sigma n option_type).bind fun g_down =>
  (pydiv (V_down - g_down) (S * 0.99 - S * 0.99 * 0.99)).bind fun delta_down =>
  (pydiv (delta_up - delta_down) (S * 1.01 - S * 0.99)).bind fun gamma =>
  (binomial_treeE S K T r (sigma + 0.01) n option_type).bind fun V_vol_up =>
  (binomial_treeE S K T r (sigma - 0.01) n option_type).bind fun V_vol_down =>
  (pydiv (V_vol_up - V_vol_down) (2 * 0.01)).bind fun vega0 =>
  (pydiv vega0 100).bind fun vega =>
  (binomial_treeE S K T r sigma n option_type).bind fun V_current =>
  (binomial_treeE S K (T - 1 / 365) r sigma n option_type).bind fun V_T_down =>
  (pydiv (V_T_down - V_current) (1 / 365)).bind fun theta0 =>
  (pydiv theta0 365).bind fun theta =>
  (binomial_treeE S K T (r + 0.01) sigma n option_type).bind fun V_r_up =>
  (binomial_treeE S K T (r - 0.01) sigma n option_type).bind fun V_r_down =>
  (pydiv (V_r_up - V_r_down) (2 * 0.01)).bind fun rho0 =>
  (pydiv rho0 100).bind fun rho =>
  some (delta, gamma, vega, theta, rho)

/-- The argument tuple of one `binomial_tree` invocation. -/
structure PricerArgs where
  S : ℝ
  K : ℝ
  T : ℝ
  r : ℝ
  sigma : ℝ
  n : ℕ
  option_type : String

/-- A `binomial_tree` call that also logs its argument tuple onto an
accumulated trace. -/
noncomputable def tracedCall (acc : List PricerArgs) (S K T r sigma : ℝ) (n : ℕ)
    (option_type : String) : ℝ × List PricerArgs :=
  (binomial_tree S K T r sigma n option_type, acc ++ [⟨S, K, T, r, sigma, n, option_type⟩])

/-- `calculate_greeks` instrumented to log, in source order, the argument
tuple of every `binomial_tree` invocation it performs. -/
noncomputable def calculate_greeks_traced (S K T r sigma : ℝ) (n : ℕ)
    (option_type : String) : (ℝ × ℝ × ℝ × ℝ × ℝ) × List PricerArgs :=
  let epsilon : ℝ := 0.01
  let S_up := S * 1.01
  let S_down := S * 0.99
  let c1 := tracedCall [] S_up K T r sigma n option_type
  let V_up := c1.1
  let c2 := tracedCall c1.2 S_down K T r sigma n option_type
  let V_down := c2.1
  let delta := (V_up - V_down) / (S_up - S_down)
  let c3 := tracedCall c2.2 (S_up * 1.01) K T r sigma n option_type
  let delta_up := (c3.1 - V_up) / (S_up * 1.01 - S_up)
  let c4 := tracedCall c3.2 (S_down * 0.99) K T r sigma n option_type
  let delta_down := (V_down - c4.1) / (S_down - S_down * 0.99)
  let gamma := (delta_up - delta_down) / (S_up - S_down)
  let c5 := tracedCall c4.2 S K T r (sigma + epsilon) n option_type
  let c6 := tracedCall c5.2 S K T r (sigma - epsilon) n option_type
  let vega := (c5.1 - c6.1) / (2 * epsilon) / 100
  let dt : ℝ := 1 / 365
  let c7 := tracedCall c6.2 S K T r sigma n option_type
  let c8 := tracedCall c7.2 S K (T - dt) r sigma n option_type
  let theta := (c8.1 - c7.1) / dt
  let theta' := theta / 365
  let c9 := tracedCall c8.2 S K T (r + epsilon) sigma n option_type
  let c10 := tracedCall c9.2 S K T (r - epsilon) sigma n option_type
  let rho := (c9.1 - c10.1) / (2 * epsilon) / 100
  ((delta, gamma, vega, theta', rho), c10.2)

lemma foldl_set_length (f : ℕ → ℝ → ℝ → ℝ) (c : ℕ) (v : List ℝ) :
    ((List.range c).foldl (fun w j => w.set j (f j (w.getD j 0) (w.getD (j + 1) 0))) v).length
      = v.length := by
  induction c with
  | zero => rfl
  | succ c ih =>
    rw [List.range_succ, List.foldl_append]
    simp only [List.foldl_cons, List.foldl_nil, List.length_set]
    exact ih

lemma foldl_set_getD (f : ℕ → ℝ → ℝ → ℝ) (c : ℕ) (v : List ℝ) :
    ∀ k, ((List.range c).foldl
        (fun w j => w.set j (f j (w.getD j 0) (w.getD (j + 1) 0))) v).getD k 0
      = if k < c ∧ k < v.length then f k (v.getD k 0) (v.getD (k + 1) 0) else v.getD k 0 := by
  induction c with
  | zero => intro k; simp
  | succ c ih =>
    intro k
    rw [List.range_succ, List.foldl_append]
    simp only [List.foldl_cons, List.foldl_nil]
    rcases eq_or_ne k c with rfl | hkc
    · rw [ih k, ih (k + 1)]
      simp only [lt_irrefl, false_and, if_false, Nat.lt_succ_iff, add_lt_iff_neg_left,
        not_lt_zero']
      by_cases hkl : k < v.length
      · have hkl' : k < ((List.range k).foldl
            (fun w j => w.set j (f j (w.getD j 0) (w.getD (j + 1) 0))) v).length := by
          rw [foldl_set_length]; exact hkl
        rw [List.getD_eq_getElem?_getD, List.getElem?_set_self',
          List.getElem?_eq_getElem hkl']
        simp only [Option.map_eq_map, Option.map_some, Option.getD_some, Function.const_apply]
        rw [if_pos ⟨le_rfl, hkl⟩]
      · have hkl' : ((List.range k).foldl
            (fun w j => w.set j (f j (w.getD j 0) (w.getD (j + 1) 0))) v).length ≤ k := by
          rw [foldl_set_length]; omega
        rw [List.getD_eq_getElem?_getD, List.getElem?_set_self',
          List.getElem?_eq_none (by simpa using hkl')]
        rw [if_neg (by omega)]
        rw [List.getD_eq_getElem?_getD, List.getElem?_eq_none (by omega : v.length ≤ k)]
        rfl
    · rw [List.getD_eq_getElem?_getD, List.getElem?_set_ne (Ne.symm hkc),
        ← List.getD_eq_getElem?_getD, ih k]
      by_cases hk : k < c ∧ k < v.length
      · rw [if_pos hk, if_pos ⟨by omega, hk.2⟩]
      · rw [if_neg hk, if_neg (by omega)]

lemma updRow_length (f : ℕ → ℝ → ℝ → ℝ) (i : ℕ) (v : List ℝ) :
    (updRow f i v).length = v.length :=
  foldl_set_length f (i + 1) v

lemma updRow_getD (f : ℕ → ℝ → ℝ → ℝ) (i : ℕ) (v : List ℝ) (k : ℕ) (hk : k < v.length) :
    (updRow f i v).getD k 0
      = if k ≤ i then f k (v.getD k 0) (v.getD (k + 1) 0) else v.getD k 0 := by
  unfold updRow
  rw [foldl_set_getD]
  by_cases h : k ≤ i
  · rw [if_pos ⟨by omega, hk⟩, if_pos h]
  · rw [if_neg (by omega), if_neg h]

/-- Invariant of the backward pass: if the row `v` holds the level-`m` node
values (on indices `0..m`), then sweeping levels `m-1..0` leaves the
node-(0,0) value at index 0. -/
lemma sweep_getD_zero (S K r dt u d p : ℝ) (ot : String) (n : ℕ) :
    ∀ m, m ≤ n → ∀ v : List ℝ, v.length = n + 1 →
      (∀ j, j ≤ m → v.getD j 0 = specNode S K r dt u d p ot n m j) →
      (sweep S K r dt u d p ot m v).getD 0 0 = specNode S K r dt u d p ot n 0 0 := by
  intro m
  induction m with
  | zero =>
    intro _ v _ hv
    exact hv 0 le_rfl
  | succ m ih =>
    intro hm v hlen hv
    rw [sweep]
    apply ih (by omega)
    · rw [updRow_length]; exact hlen
    · intro j hj
      have hjlen : j < v.length := by omega
      rw [updRow_getD _ _ _ _ hjlen, if_pos hj, hv j (by omega), hv (j + 1) (by omega)]
      conv_rhs => rw [specNode]
      rw [dif_pos (by omega : m < n)]
      rfl

/-- The code's backward pass computes exactly the spec's node-(0,0) value. -/
lemma binomial_tree_eq_specNode (S K T r sigma : ℝ) (n : ℕ) (ot : String) :
    binomial_tree S K T r sigma n ot =
      specNode S K r (T / (n : ℝ)) (Real.exp (sigma * Real.sqrt (T / (n : ℝ))))
        (1 / Real.exp (sigma * Real.sqrt (T / (n : ℝ)))) (probUp T r sigma n) ot n 0 0 := by
  unfold binomial_tree probUp
  apply sweep_getD_zero _ _ _ _ _ _ _ _ _ n le_rfl
  · by_cases hc : ot = "call" <;> simp [hc]
  · intro j hj
    have hj' : j < n + 1 := by omega
    conv_rhs => rw [specNode]
    rw [dif_neg (lt_irrefl n)]
    by_cases hc : ot = "call" <;>
      simp [hc, List.getD_eq_getElem?_getD, List.getElem?_map, List.getElem?_range hj']

/-- All node values are nonnegative when `0 ≤ p ≤ 1`: terminal values are
clipped at 0, and every interior value is the max of a nonnegative convex
combination (times a positive discount) and something. -/
lemma specNode_nonneg (S K r dt u d p : ℝ) (ot : String) (n : ℕ)
    (hp0 : 0 ≤ p) (hp1 : p ≤ 1) (i j : ℕ) : 0 ≤ specNode S K r dt u d p ot n i j := by
  rw [specNode]
  by_cases h : i < n
  · rw [dif_pos h]
    have h1 := specNode_nonneg S K r dt u d p ot n hp0 hp1 (i + 1) (j + 1)
    have h2 := specNode_nonneg S K r dt u d p ot n hp0 hp1 (i + 1) j
    refine le_max_of_le_left ?_
    exact mul_nonneg (Real.exp_pos _).le
      (add_nonneg (mul_nonneg hp0 h1) (mul_nonneg (by linarith) h2))
  · rw [dif_neg h]
    by_cases hc : ot = "call" <;> simp [hc, le_max_right]
termination_by n - i
decreasing_by all_goals omega

/-- Call node values are non-decreasing in the spot when `0 ≤ p ≤ 1` and the
lattice factors are positive. -/
lemma specNode_mono_call (S1 S2 K r dt u d p : ℝ) (n : ℕ)
    (hp0 : 0 ≤ p) (hp1 : p ≤ 1) (hu : 0 < u) (hd : 0 < d) (hS : S1 ≤ S2) (i j : ℕ) :
    specNode S1 K r dt u d p "call" n i j ≤ specNode S2 K r dt u d p "call" n i j := by
  have hstock : ∀ a b : ℕ, S1 * u ^ a * d ^ b ≤ S2 * u ^ a * d ^ b := fun a b =>
    mul_le_mul_of_nonneg_right (mul_le_mul_of_nonneg_right hS (pow_nonneg hu.le a))
      (pow_nonneg hd.le b)
  conv_lhs => rw [specNode]
  conv_rhs => rw [specNode]
  by_cases h : i < n
  · rw [dif_pos h, dif_pos h]
    have h1 := specNode_mono_call S1 S2 K r dt u d p n hp0 hp1 hu hd hS (i + 1) (j + 1)
    have h2 := specNode_mono_call S1 S2 K r dt u d p n hp0 hp1 hu hd hS (i + 1) j
    refine max_le_max ?_ ?_
    · refine mul_le_mul_of_nonneg_left ?_ (Real.exp_pos _).le
      exact add_le_add (mul_le_mul_of_nonneg_left h1 hp0)
        (mul_le_mul_of_nonneg_left h2 (by linarith))
    · have hx := hstock j (i - j)
      simp only [eq_self_iff_true, if_true]
      linarith
  · rw [dif_neg h, dif_neg h]
    simp only [eq_self_iff_true, if_true]
    refine max_le_max ?_ le_rfl
    have hx := hstock j (n - j)
    linarith
termination_by n - i
decreasing_by all_goals omega

/-- Put node values are non-increasing in the spot when `0 ≤ p ≤ 1` and the
lattice factors are positive. -/
lemma specNode_anti_put (S1 S2 K r dt u d p : ℝ) (n : ℕ)
    (hp0 : 0 ≤ p) (hp1 : p ≤ 1) (hu : 0 < u) (hd : 0 < d) (hS : S1 ≤ S2) (i j : ℕ) :
    specNode S2 K r dt u d p "put" n i j ≤ specNode S1 K r dt u d p "put" n i j := by
  have hstock : ∀ a b : ℕ, S1 * u ^ a * d ^ b ≤ S2 * u ^ a * d ^ b := fun a b =>
    mul_le_mul_of_nonneg_right (mul_le_mul_of_nonneg_right hS (pow_nonneg hu.le a))
      (pow_nonneg hd.le b)
  have hput : ("put" = "call") = False := by simp
  conv_lhs => rw [specNode]
  conv_rhs => rw [specNode]
  by_cases h : i < n
  · rw [dif_pos h, dif_pos h]
    have h1 := specNode_anti_put S1 S2 K r dt u d p n hp0 hp1 hu hd hS (i + 1) (j + 1)
    have h2 := specNode_anti_put S1 S2 K r dt u d p n hp0 hp1 hu hd hS (i + 1) j
    refine max_le_max ?_ ?_
    · refine mul_le_mul_of_nonneg_left ?_ (Real.exp_pos _).le
      exact add_le_add (mul_le_mul_of_nonneg_left h1 hp0)
        (mul_le_mul_of_nonneg_left h2 (by linarith))
    · simp only [hput, if_false]
      have := hstock j (i - j)
      linarith
  · rw [dif_neg h, dif_neg h]
    simp only [hput, if_false]
    refine max_le_max ?_ le_rfl
    have := hstock j (n - j)
    linarith
termination_by n - i
decreasing_by all_goals omega

/-- Claim C1: for every input, `binomial_tree` returns exactly the value of
the specification's backward induction — terminal payoffs
`max(S·u^j·d^(n−j) − K, 0)` (calls) or `max(K − S·u^j·d^(n−j), 0)` (puts) at
depth `n`, the maximum of the discounted expectation
`exp(−r·Δt)·(p·V[j+1] + (1−p)·V[j])` and the immediate-exercise payoff at
every interior node, and the node-(0,0) value returned.  This holds
unconditionally, hence in particular on the claim's domain (S ≥ 0, K ≥ 0,
σ > 0, T > 0, n ≥ 1, p ∈ [0,1]). -/
theorem C1_price_eq_spec_backward_induction (S K T r sigma : ℝ) (n : ℕ) (ot : String) :
    binomial_tree S K T r sigma n ot = spec_price S K T r sigma n ot := by
  rw [binomial_tree_eq_specNode]
  unfold spec_price probUp
  rfl

/-- Claim C5: for every input, the returned price is at least the root
intrinsic value: `S − K` for a call and `K − S` for a put — the
early-exercise floor holds at node (0,0) as well. -/
theorem C5_price_ge_root_intrinsic (S K T r sigma : ℝ) (n : ℕ) (ot : String) :
    (if ot = "call" then S - K else K - S) ≤ binomial_tree S K T r sigma n ot := by
  rw [binomial_tree_eq_specNode, specNode]
  by_cases h : 0 < n
  · rw [dif_pos h]
    refine le_trans ?_ (le_max_right _ _)
    by_cases hc : ot = "call" <;> simp [hc]
  · have hn0 : n = 0 := by omega
    subst hn0
    rw [dif_neg h]
    by_cases hc : ot = "call" <;> simp [hc]

/-- Claim C6: with S ≥ 0, K ≥ 0, σ > 0, T > 0, n ≥ 1 and the risk-neutral
probability `p ∈ [0,1]`, the returned price is a single scalar ≥ 0, and every
node value of the backward pass (which by `sweep_getD_zero` is what the
working row holds) is ≥ 0. -/
theorem C6_price_and_intermediates_nonneg (S K T r sigma : ℝ) (n : ℕ) (ot : String)
    (hS : 0 ≤ S) (hK : 0 ≤ K) (hsig : 0 < sigma) (hT : 0 < T) (hn : 1 ≤ n)
    (hp0 : 0 ≤ probUp T r sigma n) (hp1 : probUp T r sigma n ≤ 1) :
    0 ≤ binomial_tree S K T r sigma n ot ∧
      ∀ i j, 0 ≤ specNode S K r (T / (n : ℝ)) (Real.exp (sigma * Real.sqrt (T / (n : ℝ))))
        (1 / Real.exp (sigma * Real.sqrt (T / (n : ℝ)))) (probUp T r sigma n) ot n i j := by
  refine ⟨?_, fun i j => specNode_nonneg _ _ _ _ _ _ _ _ _ hp0 hp1 i j⟩
  rw [binomial_tree_eq_specNode]
  exact specNode_nonneg _ _ _ _ _ _ _ _ _ hp0 hp1 0 0

/-- At the parameters T = 1, r = 0, σ = 1, n = 1 the risk-neutral probability
is `(1 − 1/e)/(e − 1/e)`, which lies in `[0,1]`. -/
lemma probUp_unit_mem : 0 ≤ probUp 1 0 1 1 ∧ probUp 1 0 1 1 ≤ 1 := by
  have hE : (1 : ℝ) < Real.exp 1 := Real.one_lt_exp_iff.mpr one_pos
  have hEpos : (0 : ℝ) < Real.exp 1 := Real.exp_pos 1
  have hinv : 1 / Real.exp 1 < 1 := by
    rw [div_lt_one hEpos]; exact hE
  have hinvpos : 0 < 1 / Real.exp 1 := by positivity
  have hform : probUp 1 0 1 1 = (1 - 1 / Real.exp 1) / (Real.exp 1 - 1 / Real.exp 1) := by
    unfold probUp
    norm_num
  rw [hform]
  constructor
  · exact div_nonneg (by linarith) (by linarith)
  · rw [div_le_one (by linarith)]
    linarith

/-- Witness for C6 at S = K = 1, T = 1, r = 0, σ = 1, n = 1, variant "put". -/
theorem C6_witness :
    0 ≤ binomial_tree 1 1 1 0 1 1 "put" ∧
      ∀ i j, 0 ≤ specNode 1 1 0 (1 / ((1 : ℕ) : ℝ))
        (Real.exp (1 * Real.sqrt (1 / ((1 : ℕ) : ℝ))))
        (1 / Real.exp (1 * Real.sqrt (1 / ((1 : ℕ) : ℝ)))) (probUp 1 0 1 1) "put" 1 i j :=
  C6_price_and_intermediates_nonneg 1 1 1 0 1 1 "put" (by norm_num) (by norm_num)
    (by norm_num) (by norm_num) le_rfl probUp_unit_mem.1 probUp_unit_mem.2

lemma pydiv_eq_none (a b : ℝ) (h : b = 0) : pydiv a b = none := by
  unfold pydiv
  rw [if_pos h]

lemma pydiv_eq_some (a b : ℝ) (h : b ≠ 0) : pydiv a b = some (a / b) := by
  unfold pydiv
  rw [if_neg h]

/-- The pricer raises on every input with `n < 1`, `T ≤ 0` or `σ = 0`:
`ZeroDivisionError` (`n = 0`, or `u = d` when the time step or the volatility
vanishes), `ValueError` (negative time step), or `IndexError` (negative `n`,
empty working row). -/
lemma treeE_none_of (S K T r sigma : ℝ) (n : ℤ) (ot : String)
    (h : n < 1 ∨ T ≤ 0 ∨ sigma = 0) : binomial_treeE S K T r sigma n ot = none := by
  simp only [binomial_treeE]
  by_cases hn0 : n = 0
  · rw [if_pos hn0]
  · rw [if_neg hn0]
    by_cases h1 : T / (n : ℝ) < 0
    · rw [if_pos h1]
    · rw [if_neg h1]
      have hdt0 : Real.sqrt (T / (n : ℝ)) = 0 ∨ sigma = 0 → Real.exp
            (sigma * Real.sqrt (T / (n : ℝ))) -
            1 / Real.exp (sigma * Real.sqrt (T / (n : ℝ))) = 0 := by
        intro hc
        have hx : sigma * Real.sqrt (T / (n : ℝ)) = 0 := by
          rcases hc with hc | hc <;> rw [hc] <;> ring
        rw [hx, Real.exp_zero]
        norm_num
      by_cases h2 : Real.exp (sigma * Real.sqrt (T / (n : ℝ))) -
          1 / Real.exp (sigma * Real.sqrt (T / (n : ℝ))) = 0
      · rw [if_pos h2]
      · rw [if_neg h2]
        by_cases h3 : n < 0
        · rw [if_pos h3]
        · exfalso
          have hn1 : 1 ≤ n := by omega
          rcases h with hlt | hT | hs
          · omega
          · have hnpos : (0 : ℝ) < (n : ℝ) := by exact_mod_cast (by omega : (0 : ℤ) < n)
            have hdtle : T / (n : ℝ) ≤ 0 := div_nonpos_of_nonpos_of_nonneg hT hnpos.le
            have hdteq : T / (n : ℝ) = 0 := le_antisymm hdtle (not_lt.mp h1)
            exact h2 (hdt0 (Or.inl (by rw [hdteq, Real.sqrt_zero])))
          · exact h2 (hdt0 (Or.inr hs))

/-- On `n ≥ 1`, `T > 0`, `σ ≠ 0` the pricer succeeds and returns the
`binomial_tree` value. -/
lemma treeE_some_of (S K T r sigma : ℝ) (n : ℤ) (ot : String)
    (hn : 1 ≤ n) (hT : 0 < T) (hsig : sigma ≠ 0) :
    binomial_treeE S K T r sigma n ot = some (binomial_tree S K T r sigma n.toNat ot) := by
  simp only [binomial_treeE]
  have hn0 : n ≠ 0 := by omega
  have hnpos : (0 : ℝ) < (n : ℝ) := by exact_mod_cast (by omega : (0 : ℤ) < n)
  have hdt : 0 < T / (n : ℝ) := div_pos hT hnpos
  have hs : 0 < Real.sqrt (T / (n : ℝ)) := Real.sqrt_pos.mpr hdt
  have hx : sigma * Real.sqrt (T / (n : ℝ)) ≠ 0 := mul_ne_zero hsig (ne_of_gt hs)
  have hupos : 0 < Real.exp (sigma * Real.sqrt (T / (n : ℝ))) := Real.exp_pos _
  have hud : Real.exp (sigma * Real.sqrt (T / (n : ℝ))) -
      1 / Real.exp (sigma * Real.sqrt (T / (n : ℝ))) ≠ 0 := by
    intro hc
    set u := Real.exp (sigma * Real.sqrt (T / (n : ℝ))) with hu
    have huu : u * u = 1 := by
      have h1 : u = 1 / u := by linarith [sub_eq_zero.mp hc]
      field_simp at h1
      linarith [h1]
    have hfac : (u - 1) * (u + 1) = 0 := by ring_nf; linarith [huu]
    rcases mul_eq_zero.mp hfac with hz | hz
    · exact hx ((Real.exp_eq_one_iff _).mp (by linarith : u = 1))
    · linarith
  rw [if_neg hn0, if_neg (not_lt.mpr hdt.le), if_neg hud, if_neg (by omega : ¬ n < 0)]

lemma treeE_isSome_indep (S K T r sigma : ℝ) (m : ℤ) (ot1 ot2 : String) :
    (binomial_treeE S K T r sigma m ot1).isSome = (binomial_treeE S K T r sigma m ot2).isSome := by
  simp only [binomial_treeE]
  split_ifs <;> rfl

/-- A node value does not depend on the variant string beyond whether it
equals "call": any other variant prices the put payoff. -/
lemma specNode_not_call (S K r dt u d p : ℝ) (ot : String) (n : ℕ) (h : ot ≠ "call")
    (i j : ℕ) :
    specNode S K r dt u d p ot n i j = specNode S K r dt u d p "put" n i j := by
  have hput : ("put" : String) ≠ "call" := by decide
  conv_lhs => rw [specNode]
  conv_rhs => rw [specNode]
  by_cases hi : i < n
  · rw [dif_pos hi, dif_pos hi, specNode_not_call S K r dt u d p ot n h (i + 1) (j + 1),
      specNode_not_call S K r dt u d p ot n h (i + 1) j, if_neg h, if_neg hput]
  · rw [dif_neg hi, dif_neg hi, if_neg h, if_neg hput]
termination_by n - i
decreasing_by all_goals omega

/-- Claim C4 (amended): the pricer fails fast for `n < 1`, `T ≤ 0` and the
degenerate lattice `σ = 0` — but for negative spot, strike or volatility
(with `n ≥ 1`, `T > 0`, `σ ≠ 0`) it does NOT fail: it silently returns a
numeric result.  The first conjunct is the fail-fast part that does hold; the
second shows no validation of `S`, `K` or the sign of `σ` ever occurs. -/
theorem C4_fail_fast_only_partially (S K T r sigma : ℝ) (n : ℤ) (ot : String) :
    ((n < 1 ∨ T ≤ 0 ∨ sigma = 0) → binomial_treeE S K T r sigma n ot = none) ∧
      (1 ≤ n → 0 < T → sigma ≠ 0 →
        binomial_treeE S K T r sigma n ot = some (binomial_tree S K T r sigma n.toNat ot)) :=
  ⟨treeE_none_of S K T r sigma n ot, treeE_some_of S K T r sigma n ot⟩

/-- Counterexample to claim C4 as stated: the InvalidParameter input
S = −1 (negative spot, all other parameters valid) does not fail — the pricer
returns a numeric result. -/
theorem C4_counterexample :
    (binomial_treeE (-1) 1 1 0 1 1 "call").isSome = true := by
  rw [treeE_some_of (-1) 1 1 0 1 1 "call" le_rfl one_pos one_ne_zero]
  rfl

/-- Witness for C4: σ = 0 (degenerate lattice) fails; S = −1 with valid
remaining parameters returns a value. -/
theorem C4_witness :
    binomial_treeE 1 1 1 0 0 1 "call" = none ∧
      binomial_treeE (-1) 1 1 0 1 1 "put"
        = some (binomial_tree (-1) 1 1 0 1 (Int.toNat 1) "put") :=
  ⟨(C4_fail_fast_only_partially 1 1 1 0 0 1 "call").1 (Or.inr (Or.inr rfl)),
    (C4_fail_fast_only_partially (-1) 1 1 0 1 1 "put").2 le_rfl one_pos one_ne_zero⟩

/-- Claim C10: the variant string is never validated — every variant other
than exactly "call" computes the put payoffs (so "Call", "CALL", anything
else all price the put), and no input is ever rejected because of its
variant (success/failure of the pricer is independent of the variant). -/
theorem C10_variant_never_validated (S K T r sigma : ℝ) (n : ℕ) (m : ℤ) (ot : String)
    (h : ot ≠ "call") :
    binomial_tree S K T r sigma n ot = binomial_tree S K T r sigma n "put" ∧
      ∀ ot2, (binomial_treeE S K T r sigma m ot).isSome
        = (binomial_treeE S K T r sigma m ot2).isSome := by
  refine ⟨?_, fun ot2 => treeE_isSome_indep S K T r sigma m ot ot2⟩
  rw [binomial_tree_eq_specNode, binomial_tree_eq_specNode,
    specNode_not_call _ _ _ _ _ _ _ _ _ h, specNode_not_call _ _ _ _ _ _ _ _ _ (by decide)]

/-- Witness for C10 at the variant "CALL" (wrong case): it prices the put. -/
theorem C10_witness :
    binomial_tree 1 1 1 0 1 1 "CALL" = binomial_tree 1 1 1 0 1 1 "put" ∧
      ∀ ot2, (binomial_treeE 1 1 1 0 1 2 "CALL").isSome
        = (binomial_treeE 1 1 1 0 1 2 ot2).isSome :=
  C10_variant_never_validated 1 1 1 0 1 1 2 "CALL" (by decide)

/-- Claim C9: for 0 < T ≤ 1/365 (σ > 0, n ≥ 1), the Greeks function raises
instead of returning a five-tuple — its theta computation prices at the
non-positive expiry T − 1/365 — while the pricer itself succeeds on the same
unperturbed input. -/
theorem C9_greeks_raise_on_small_T (S K T r sigma : ℝ) (n : ℤ) (ot : String)
    (hT0 : 0 < T) (hTle : T ≤ 1 / 365) (hsig : 0 < sigma) (hn : 1 ≤ n) :
    calculate_greeksE S K T r sigma n ot = none ∧
      (binomial_treeE S K T r sigma n ot).isSome = true := by
  have hsig' : sigma ≠ 0 := ne_of_gt hsig
  refine ⟨?_, by rw [treeE_some_of S K T r sigma n ot hn hT0 hsig']; rfl⟩
  unfold calculate_greeksE
  rw [treeE_some_of (S * 1.01) K T r sigma n ot hn hT0 hsig', Option.some_bind]
  rw [treeE_some_of (S * 0.99) K T r sigma n ot hn hT0 hsig', Option.some_bind]
  by_cases hS0 : S * 1.01 - S * 0.99 = 0
  · rw [pydiv_eq_none _ _ hS0, Option.none_bind]
  · rw [pydiv_eq_some _ _ hS0, Option.some_bind]
    rw [treeE_some_of (S * 1.01 * 1.01) K T r sigma n ot hn hT0 hsig', Option.some_bind]
    have hSne : S ≠ 0 := by
      intro hs
      apply hS0
      rw [hs]
      ring
    have hden1 : S * 1.01 * 1.01 - S * 1.01 ≠ 0 := by
      intro hc
      exact hSne (by linear_combination hc / 0.0101)
    rw [pydiv_eq_some _ _ hden1, Option.some_bind]
    rw [treeE_some_of (S * 0.99 * 0.99) K T r sigma n ot hn hT0 hsig', Option.some_bind]
    have hden2 : S * 0.99 - S * 0.99 * 0.99 ≠ 0 := by
      intro hc
      exact hSne (by linear_combination hc / 0.0099)
    rw [pydiv_eq_some _ _ hden2, Option.some_bind]
    rw [pydiv_eq_some _ _ hS0, Option.some_bind]
    rw [treeE_some_of S K T r (sigma + 0.01) n ot hn hT0
      (by positivity), Option.some_bind]
    by_cases hv : sigma - 0.01 = 0
    · rw [treeE_none_of S K T r (sigma - 0.01) n ot (Or.inr (Or.inr hv)), Option.none_bind]
    · rw [treeE_some_of S K T r (sigma - 0.01) n ot hn hT0 hv, Option.some_bind]
      rw [pydiv_eq_some _ _ (show (2 : ℝ) * 0.01 ≠ 0 by norm_num), Option.some_bind]
      rw [pydiv_eq_some _ _ (show (100 : ℝ) ≠ 0 by norm_num), Option.some_bind]
      rw [treeE_some_of S K T r sigma n ot hn hT0 hsig', Option.some_bind]
      rw [treeE_none_of S K (T - 1 / 365) r sigma n ot (Or.inr (Or.inl (by linarith))),
        Option.none_bind]

/-- Witness for C9 at S = K = 1, T = 1/365 (one calendar day), r = 0, σ = 1,
n = 1. -/
theorem C9_witness :
    calculate_greeksE 1 1 (1 / 365) 0 1 1 "call" = none ∧
      (binomial_treeE 1 1 (1 / 365) 0 1 1 "call").isSome = true :=
  C9_greeks_raise_on_small_T 1 1 (1 / 365) 0 1 1 "call" (by norm_num) le_rfl one_pos le_rfl

/-- Explicit form of the Greeks tuple (definitional unfolding of the lets). -/
lemma calculate_greeks_eq (S K T r sigma : ℝ) (n : ℕ) (ot : String) :
    calculate_greeks S K T r sigma n ot =
      ((binomial_tree (S * 1.01) K T r sigma n ot - binomial_tree (S * 0.99) K T r sigma n ot)
          / (S * 1.01 - S * 0.99),
        ((binomial_tree (S * 1.01 * 1.01) K T r sigma n ot
              - binomial_tree (S * 1.01) K T r sigma n ot) / (S * 1.01 * 1.01 - S * 1.01)
            - (binomial_tree (S * 0.99) K T r sigma n ot
              - binomial_tree (S * 0.99 * 0.99) K T r sigma n ot)
              / (S * 0.99 - S * 0.99 * 0.99)) / (S * 1.01 - S * 0.99),
        (binomial_tree S K T r (sigma + 0.01) n ot - binomial_tree S K T r (sigma - 0.01) n ot)
          / (2 * 0.01) / 100,
        (binomial_tree S K (T - 1 / 365) r sigma n ot - binomial_tree S K T r sigma n ot)
          / (1 / 365) / 365,
        (binomial_tree S K T (r + 0.01) sigma n ot - binomial_tree S K T (r - 0.01) sigma n ot)
          / (2 * 0.01) / 100) := rfl

/-- Claim C3: for T > 1/365 the theta component equals
`((price(T − 1/365) − price(T)) / (1/365)) / 365`, and after the double
division this is exactly the one-day price change
`price(T − 1/365) − price(T)` itself. -/
theorem C3_theta_double_division (S K T r sigma : ℝ) (n : ℕ) (ot : String)
    (hT : 1 / 365 < T) :
    (calculate_greeks S K T r sigma n ot).2.2.2.1 =
        (binomial_tree S K (T - 1 / 365) r sigma n ot - binomial_tree S K T r sigma n ot)
          / (1 / 365) / 365 ∧
      (calculate_greeks S K T r sigma n ot).2.2.2.1 =
        binomial_tree S K (T - 1 / 365) r sigma n ot - binomial_tree S K T r sigma n ot := by
  rw [calculate_greeks_eq]
  refine ⟨rfl, ?_⟩
  field_simp

/-- Witness for C3 at S = K = 1, T = 1, r = 0, σ = 1, n = 1, variant "call". -/
theorem C3_witness :
    (calculate_greeks 1 1 1 0 1 1 "call").2.2.2.1 =
        (binomial_tree 1 1 (1 - 1 / 365) 0 1 1 "call" - binomial_tree 1 1 1 0 1 1 "call")
          / (1 / 365) / 365 ∧
      (calculate_greeks 1 1 1 0 1 1 "call").2.2.2.1 =
        binomial_tree 1 1 (1 - 1 / 365) 0 1 1 "call" - binomial_tree 1 1 1 0 1 1 "call" :=
  C3_theta_double_division 1 1 1 0 1 1 "call" (by norm_num)

/-- Claim C7: for S > 0 the delta component equals exactly
`(price(1.01·S) − price(0.99·S)) / (0.02·S)`. -/
theorem C7_delta_central_difference (S K T r sigma : ℝ) (n : ℕ) (ot : String)
    (hS : 0 < S) :
    (calculate_greeks S K T r sigma n ot).1 =
      (binomial_tree (1.01 * S) K T r sigma n ot - binomial_tree (0.99 * S) K T r sigma n ot)
        / (0.02 * S) := by
  rw [calculate_greeks_eq]
  have e1 : S * 1.01 = 1.01 * S := mul_comm _ _
  have e2 : S * 0.99 = 0.99 * S := mul_comm _ _
  rw [e1, e2]
  congr 1
  ring

/-- Witness for C7 at S = 1, K = 1, T = 1, r = 0, σ = 1, n = 1, "put". -/
theorem C7_witness :
    (calculate_greeks 1 1 1 0 1 1 "put").1 =
      (binomial_tree (1.01 * 1) 1 1 0 1 1 "put" - binomial_tree (0.99 * 1) 1 1 0 1 1 "put")
        / (0.02 * 1) :=
  C7_delta_central_difference 1 1 1 0 1 1 "put" one_pos

/-- The traced Greeks computation returns the same value tuple as
`calculate_greeks`. -/
lemma calculate_greeks_traced_fst (S K T r sigma : ℝ) (n : ℕ) (ot : String) :
    (calculate_greeks_traced S K T r sigma n ot).1 = calculate_greeks S K T r sigma n ot := rfl

/-- Claim C2 (amended): the Greeks function performs exactly 10 pricer
invocations, not 8 beyond the base: 9 with perturbed inputs (2 delta, 2 more
for gamma reusing delta's two results, 2 vega, 1 theta, 2 rho) plus one
unperturbed recomputation of the base price (trace entry 6) inside the theta
computation; entry 7 is theta's single perturbed call at T − 1/365. -/
theorem C2_ten_pricer_invocations (S K T r sigma : ℝ) (n : ℕ) (ot : String) :
    (calculate_greeks_traced S K T r sigma n ot).2.length = 10 ∧
      (calculate_greeks_traced S K T r sigma n ot).2[6]? = some ⟨S, K, T, r, sigma, n, ot⟩ ∧
      (calculate_greeks_traced S K T r sigma n ot).2[7]?
        = some ⟨S, K, T - 1 / 365, r, sigma, n, ot⟩ :=
  ⟨rfl, rfl, rfl⟩

/-- Counterexample to claim C2 as stated: at a concrete input the Greeks
function performs 10 pricer invocations — so not 8 beyond the base price
(which would be at most 9 in total), and its theta section performs two calls
(entries 6 and 7 of the trace), the first being an unperturbed recomputation
of the base price, not 1. -/
theorem C2_counterexample :
    (calculate_greeks_traced 100 100 1 (5 / 100) (2 / 10) 2 "call").2.length = 10 ∧
      (calculate_greeks_traced 100 100 1 (5 / 100) (2 / 10) 2 "call").2[6]?
        = some ⟨100, 100, 1, 5 / 100, 2 / 10, 2, "call"⟩ ∧
      (calculate_greeks_traced 100 100 1 (5 / 100) (2 / 10) 2 "call").2[7]?
        = some ⟨100, 100, 1 - 1 / 365, 5 / 100, 2 / 10, 2, "call"⟩ :=
  ⟨rfl, rfl, rfl⟩

/-- Claim C8 (amended): holding K, T, r, σ, n fixed, and provided the
risk-neutral probability lies in [0,1] (the spec's stability condition), the
price is non-decreasing in the spot for calls and non-increasing for puts. -/
theorem C8_monotone_in_spot (S1 S2 K T r sigma : ℝ) (n : ℕ)
    (h12 : S1 ≤ S2) (hp0 : 0 ≤ probUp T r sigma n) (hp1 : probUp T r sigma n ≤ 1) :
    binomial_tree S1 K T r sigma n "call" ≤ binomial_tree S2 K T r sigma n "call" ∧
      binomial_tree S2 K T r sigma n "put" ≤ binomial_tree S1 K T r sigma n "put" := by
  constructor
  · rw [binomial_tree_eq_specNode, binomial_tree_eq_specNode]
    exact specNode_mono_call S1 S2 K r _ _ _ _ n hp0 hp1 (Real.exp_pos _) (by positivity)
      h12 0 0
  · rw [binomial_tree_eq_specNode, binomial_tree_eq_specNode]
    exact specNode_anti_put S1 S2 K r _ _ _ _ n hp0 hp1 (Real.exp_pos _) (by positivity)
      h12 0 0

/-- Witness for C8 (amended) at K = 1, T = 1, r = 0, σ = 1, n = 1, spots 1 ≤ 2. -/
theorem C8_witness :
    binomial_tree 1 1 1 0 1 1 "call" ≤ binomial_tree 2 1 1 0 1 1 "call" ∧
      binomial_tree 2 1 1 0 1 1 "put" ≤ binomial_tree 1 1 1 0 1 1 "put" :=
  C8_monotone_in_spot 1 2 1 1 0 1 1 one_le_two probUp_unit_mem.1 probUp_unit_mem.2

lemma specNode_one_root (S K r dt u d p : ℝ) (ot : String) :
    specNode S K r dt u d p ot 1 0 0 =
      max (Real.exp (-r * dt) * (p * specNode S K r dt u d p ot 1 1 1
          + (1 - p) * specNode S K r dt u d p ot 1 1 0))
        (if ot = "call" then S - K else K - S) := by
  conv_lhs => rw [specNode]
  rw [dif_pos one_pos]
  norm_num

lemma specNode_one_term (S K r dt u d p : ℝ) (ot : String) (j : ℕ) :
    specNode S K r dt u d p ot 1 1 j =
      if ot = "call" then max (S * u ^ j * d ^ (1 - j) - K) 0
      else max (K - S * u ^ j * d ^ (1 - j)) 0 := by
  rw [specNode, dif_neg (lt_irrefl 1)]

/-- Closed form of the one-step (n = 1) call price. -/
lemma binomial_tree_one_call (S K T r sigma : ℝ) :
    binomial_tree S K T r sigma 1 "call" =
      max (Real.exp (-r * (T / ((1 : ℕ) : ℝ))) * (probUp T r sigma 1 *
            max (S * Real.exp (sigma * Real.sqrt (T / ((1 : ℕ) : ℝ))) - K) 0
          + (1 - probUp T r sigma 1) *
            max (S * (1 / Real.exp (sigma * Real.sqrt (T / ((1 : ℕ) : ℝ)))) - K) 0))
        (S - K) := by
  rw [binomial_tree_eq_specNode, specNode_one_root, specNode_one_term, specNode_one_term]
  norm_num

/-- The one-step call price at T = 1, σ = 1: the lattice factors are
`e` and `1/e`. -/
lemma binomial_tree_unit_call (S K r : ℝ) :
    binomial_tree S K 1 r 1 1 "call" =
      max (Real.exp (-r) * (probUp 1 r 1 1 * max (S * Real.exp 1 - K) 0
          + (1 - probUp 1 r 1 1) * max (S * (1 / Real.exp 1) - K) 0))
        (S - K) := by
  rw [binomial_tree_one_call]
  norm_num [Real.sqrt_one]

lemma probUp_neg2 : probUp 1 (-2) 1 1 =
    (Real.exp (-2) - 1 / Real.exp 1) / (Real.exp 1 - 1 / Real.exp 1) := by
  unfold probUp
  norm_num [Real.sqrt_one]

lemma exp_two_eq : Real.exp 2 = Real.exp 1 * Real.exp 1 := by
  rw [show (2 : ℝ) = 1 + 1 by norm_num, Real.exp_add]

/-- Counterexample to claim C8 as stated: the claim has no restriction on the
risk-neutral probability, but at r = −2 (where p < 0, an input on which the
pricer is perfectly defined and returns a float) the call price strictly
DECREASES when the spot rises from 2/5 to 1/2. -/
theorem C8_counterexample :
    (2 / 5 : ℝ) ≤ 1 / 2 ∧
      binomial_tree (1 / 2) 1 1 (-2) 1 1 "call"
        < binomial_tree (2 / 5) 1 1 (-2) 1 1 "call" := by
  refine ⟨by norm_num, ?_⟩
  have hEl : (2.7182818283 : ℝ) < Real.exp 1 := Real.exp_one_gt_d9
  have hEu : Real.exp 1 < (2.7182818286 : ℝ) := Real.exp_one_lt_d9
  have hEpos : (0 : ℝ) < Real.exp 1 := Real.exp_pos 1
  have hE0 : Real.exp 1 ≠ 0 := ne_of_gt hEpos
  have hinv : 1 / Real.exp 1 < 1 := by
    rw [div_lt_one hEpos]
    linarith
  have hEp1 : (0 : ℝ) < Real.exp 1 + 1 := by linarith
  have hEp1' : Real.exp 1 + 1 ≠ 0 := ne_of_gt hEp1
  have hEd : Real.exp 1 - 1 / Real.exp 1 ≠ 0 := by
    intro hc
    have : Real.exp 1 = 1 / Real.exp 1 := by linarith
    linarith
  rw [binomial_tree_unit_call, binomial_tree_unit_call, probUp_neg2]
  have hA2 : max ((1 / 2 : ℝ) * Real.exp 1 - 1) 0 = (1 / 2 : ℝ) * Real.exp 1 - 1 :=
    max_eq_left (by linarith)
  have hA4 : max ((2 / 5 : ℝ) * Real.exp 1 - 1) 0 = (2 / 5 : ℝ) * Real.exp 1 - 1 :=
    max_eq_left (by linarith)
  have hB2 : max ((1 / 2 : ℝ) * (1 / Real.exp 1) - 1) 0 = 0 :=
    max_eq_right (by nlinarith)
  have hB4 : max ((2 / 5 : ℝ) * (1 / Real.exp 1) - 1) 0 = 0 :=
    max_eq_right (by nlinarith)
  rw [hA2, hA4, hB2, hB4]
  simp only [mul_zero, add_zero]
  have hneg : Real.exp (-(-2 : ℝ)) = Real.exp 1 * Real.exp 1 := by
    rw [neg_neg]
    exact exp_two_eq
  have hexpneg2 : Real.exp (-2 : ℝ) = 1 / (Real.exp 1 * Real.exp 1) := by
    rw [Real.exp_neg, exp_two_eq, ← one_div]
  rw [hneg, hexpneg2]
  have key : ∀ X : ℝ, Real.exp 1 * Real.exp 1 *
      ((1 / (Real.exp 1 * Real.exp 1) - 1 / Real.exp 1) / (Real.exp 1 - 1 / Real.exp 1) * X)
        = -(Real.exp 1 / (Real.exp 1 + 1)) * X := by
    intro X
    rw [← mul_assoc]
    have h1 : Real.exp 1 * Real.exp 1 *
        ((1 / (Real.exp 1 * Real.exp 1) - 1 / Real.exp 1) / (Real.exp 1 - 1 / Real.exp 1))
          = -(Real.exp 1 / (Real.exp 1 + 1)) := by
      rw [← mul_div_assoc, div_eq_iff hEd]
      field_simp
      ring
    rw [h1]
  rw [key, key]
  have hc2ge : (1 / 2 : ℝ) - 1 ≤ -(Real.exp 1 / (Real.exp 1 + 1)) *
      ((1 / 2 : ℝ) * Real.exp 1 - 1) := by
    have h : -(Real.exp 1 / (Real.exp 1 + 1)) * ((1 / 2 : ℝ) * Real.exp 1 - 1)
        = -(Real.exp 1 * ((1 / 2 : ℝ) * Real.exp 1 - 1) / (Real.exp 1 + 1)) := by
      ring
    rw [h, show (1 / 2 : ℝ) - 1 = -(1 / 2 : ℝ) by norm_num, neg_le_neg_iff,
      div_le_iff hEp1]
    nlinarith
  have hc24 : -(Real.exp 1 / (Real.exp 1 + 1)) * ((1 / 2 : ℝ) * Real.exp 1 - 1)
      < -(Real.exp 1 / (Real.exp 1 + 1)) * ((2 / 5 : ℝ) * Real.exp 1 - 1) := by
    have hx : (2 / 5 : ℝ) * Real.exp 1 - 1 < (1 / 2 : ℝ) * Real.exp 1 - 1 := by
      nlinarith
    have hneg' : -(Real.exp 1 / (Real.exp 1 + 1)) < 0 := by
      have : 0 < Real.exp 1 / (Real.exp 1 + 1) := div_pos hEpos hEp1
      linarith
    exact mul_lt_mul_of_neg_left hx hneg'
  calc max (-(Real.exp 1 / (Real.exp 1 + 1)) * ((1 / 2 : ℝ) * Real.exp 1 - 1))
        ((1 / 2 : ℝ) - 1)
      = -(Real.exp 1 / (Real.exp 1 + 1)) * ((1 / 2 : ℝ) * Real.exp 1 - 1) :=
        max_eq_left hc2ge
    _ < -(Real.exp 1 / (Real.exp 1 + 1)) * ((2 / 5 : ℝ) * Real.exp 1 - 1) := hc24
    _ ≤ max (-(Real.exp 1 / (Real.exp 1 + 1)) * ((2 / 5 : ℝ) * Real.exp 1 - 1))
        ((2 / 5 : ℝ) - 1) := le_max_left _ _
